import Mathlib

/-!
Shallow embedding of `src/prize_draw.py` (weighted prize draw).

A Python dict of participant names to integer weights is modelled as an
association list in insertion order (`Dict`); Python dict iteration order is
insertion order, so iterating the list matches iterating the dict.  The
process-wide pseudo-random source is modelled as an explicit function: a call
`random.randint(1, total)` becomes an application `randint total`, and in the
multi-call functions the source is indexed by the call counter
(`randint : Nat → Int → Int`).  A function that can fail (`return None`, or an
uncaught `ZeroDivisionError`) returns an `Option`.  Python `float` division in
`show_odds` / `simulate_probabilities` is modelled over `ℚ`; every value the
claims mention (50, 75, 25, 0) is exactly representable, so no rounding is
involved.  For the frame-effect claims, dicts live in a small store of
references (`Store`), so that "copies its input" versus "aliases its input" is
observable.
-/

/-- A Python dict from participant name to weight, in insertion order. -/
abbrev Dict := List (String × Int)

/-- `sum(collection.values())` (line 12 / 43 / 60 of `prize_draw.py`). -/
def sumWeights (collection : Dict) : Int :=
  (collection.map (fun p => p.2)).sum

/-- The `for name, weight in collection.items(): r -= weight; if r <= 0:
return name` loop of `weighted_choice` (lines 17–21), with the running value
`r` passed along; falling off the loop is the trailing `return None`. -/
def pickFrom : Dict → Int → Option String
  | [], _ => none
  | (name, weight) :: rest, r =>
      if r - weight ≤ 0 then some name else pickFrom rest (r - weight)

/-- `weighted_choice(collection)` (lines 10–21): computes the total weight,
returns `None` when it is `<= 0`, otherwise draws `r = randint(1, total)` and
runs the subtraction loop.  The random source is the explicit argument
`randint`, applied to the upper bound as `random.randint(1, total_weight)`. -/
def weighted_choice (collection : Dict) (randint : Int → Int) : Option String :=
  let total_weight := sumWeights collection
  if total_weight ≤ 0 then none
  else pickFrom collection (randint total_weight)

/-- `del pool[winner]` (line 35): removes the unique entry with the given key
(dict keys are unique, so removing the first occurrence is dict deletion). -/
def delKey : Dict → String → Dict
  | [], _ => []
  | (name, weight) :: rest, k =>
      if name = k then rest else (name, weight) :: delKey rest k

/-- The `for _ in range(min(num_winners, len(pool)))` loop of `draw_winners`
(lines 30–35): pick, `if not winner: break` (Python truthiness: `None` and the
empty string are both falsy), append, delete from the pool.  `step` counts the
calls to `weighted_choice` so that each call sees its own random draw. -/
def drawLoop (randint : Nat → Int → Int) : Nat → Dict → Nat → List String
  | 0, _, _ => []
  | fuel + 1, pool, step =>
      match weighted_choice pool (randint step) with
      | none => []
      | some winner =>
          if winner = "" then []
          else winner :: drawLoop randint fuel (delKey pool winner) (step + 1)

/-- `draw_winners(participants, num_winners)` (lines 26–36): works on a private
copy `pool = dict(participants)` and runs the loop `min(num_winners, len(pool))`
times (a negative `num_winners` gives an empty `range`). -/
def draw_winners (participants : Dict) (num_winners : Int)
    (randint : Nat → Int → Int) : List String :=
  drawLoop randint (min num_winners (participants.length : Int)).toNat
    participants 0

/-- The `for name, weight in participants.items()` body of `show_odds`
(lines 45–47): each iteration computes `(weight / total_weight) * 100`, which
raises `ZeroDivisionError` (modelled as `none`) when the total is zero. -/
def oddsLoop : Dict → Int → Option (List (String × ℚ))
  | [], _ => some []
  | (name, weight) :: rest, total =>
      if total = 0 then none
      else
        match oddsLoop rest total with
        | none => none
        | some out => some ((name, ((weight : ℚ) / (total : ℚ)) * 100) :: out)

/-- `show_odds(participants)` (lines 41–48), returning the per-participant odds
it prints; `none` models an uncaught `ZeroDivisionError`. -/
def show_odds (participants : Dict) : Option (List (String × ℚ)) :=
  oddsLoop participants (sumWeights participants)

/-- The `results = Counter(); for _ in range(draws): results[winner] += 1` part
of `simulate_probabilities` (lines 55–58).  The counter is keyed by the value
returned by `weighted_choice`, which may be `None`; trial `t` uses random draw
`randint t`. -/
def tallyDraws (participants : Dict) (randint : Nat → Int → Int) :
    Nat → (Option String → Nat)
  | 0 => fun _ => 0
  | t + 1 => fun x =>
      tallyDraws participants randint t x +
        (if weighted_choice participants (randint t) = x then 1 else 0)

/-- The reporting loop of `simulate_probabilities` (lines 62–64): for each
participant, `observed = results[name] / draws * 100`, raising
`ZeroDivisionError` (modelled as `none`) when `draws = 0`. -/
def reportLoop : Dict → (Option String → Nat) → Nat → Option (List (String × ℚ))
  | [], _, _ => some []
  | (name, _) :: rest, results, draws =>
      if draws = 0 then none
      else
        match reportLoop rest results draws with
        | none => none
        | some out =>
            some ((name, ((results (some name) : ℚ) / (draws : ℚ)) * 100) :: out)

/-- `simulate_probabilities(participants, draws)` (lines 53–65), returning the
observed per-participant win rates it prints. -/
def simulate_probabilities (participants : Dict) (draws : Nat)
    (randint : Nat → Int → Int) : Option (List (String × ℚ)) :=
  reportLoop participants (tallyDraws participants randint draws) draws

/-! ### A store of dict references, for the frame-effect claims

Python dicts are mutable objects reached through references; `pool =
dict(participants)` allocates a fresh dict, while `pool = participants` would
alias.  `Store` is a heap of dicts indexed by `Nat` references. -/

/-- A heap of dicts; a reference is an index into the list. -/
abbrev Store := List Dict

/-- Read the dict behind a reference. -/
def readDict (σ : Store) (ref : Nat) : Dict :=
  σ.getD ref []

/-- Overwrite the dict behind a reference (in-place mutation of that dict). -/
def writeDict (σ : Store) (ref : Nat) (d : Dict) : Store :=
  σ.set ref d

/-- `dict(participants)`: allocate a fresh dict holding the given entries and
return its reference. -/
def allocDict (σ : Store) (d : Dict) : Store × Nat :=
  (σ ++ [d], σ.length)

/-- The loop of `draw_winners` acting on the store: each `del pool[winner]`
writes back through the pool's reference. -/
def drawLoopS (randint : Nat → Int → Int) :
    Nat → Store → Nat → Nat → List String × Store
  | 0, σ, _, _ => ([], σ)
  | fuel + 1, σ, poolRef, step =>
      match weighted_choice (readDict σ poolRef) (randint step) with
      | none => ([], σ)
      | some winner =>
          if winner = "" then ([], σ)
          else
            let σ' := writeDict σ poolRef (delKey (readDict σ poolRef) winner)
            let res := drawLoopS randint fuel σ' poolRef (step + 1)
            (winner :: res.1, res.2)

/-- `draw_winners` on the store: line 29 `pool = dict(participants)` allocates
a fresh dict (a copy, not an alias), and the loop mutates only that copy. -/
def draw_winnersS (σ : Store) (pRef : Nat) (num_winners : Int)
    (randint : Nat → Int → Int) : List String × Store :=
  let participants := readDict σ pRef
  let alloc := allocDict σ participants
  drawLoopS randint (min num_winners (participants.length : Int)).toNat
    alloc.1 alloc.2 0

/-- `simulate_probabilities` on the store: it only ever reads the participants
dict (lines 57, 60, 62) — no statement writes through any dict reference — so
the store comes back unchanged. -/
def simulate_probabilitiesS (σ : Store) (pRef : Nat) (draws : Nat)
    (randint : Nat → Int → Int) : Option (List (String × ℚ)) × Store :=
  (simulate_probabilities (readDict σ pRef) draws randint, σ)

/-- `show_odds` on the store: it only reads the participants dict (lines
43, 45) — no statement writes through any dict reference. -/
def show_oddsS (σ : Store) (pRef : Nat) : Option (List (String × ℚ)) × Store :=
  (show_odds (readDict σ pRef), σ)

/-! ### Basic lemmas -/

theorem sumWeights_nil : sumWeights [] = 0 := rfl

theorem sumWeights_cons (n : String) (w : Int) (t : Dict) :
    sumWeights ((n, w) :: t) = w + sumWeights t := by
  simp [sumWeights]

theorem sumWeights_nonneg (l : Dict) (hw : ∀ p ∈ l, 1 ≤ p.2) :
    0 ≤ sumWeights l := by
  induction l with
  | nil => simp [sumWeights]
  | cons head tail ih =>
      obtain ⟨n, w⟩ := head
      have h1 : 1 ≤ w := hw (n, w) (by simp)
      have h2 := ih (fun p hp => hw p (by simp [hp]))
      rw [sumWeights_cons]; omega

theorem sumWeights_pos (l : Dict) (hne : l ≠ []) (hw : ∀ p ∈ l, 1 ≤ p.2) :
    0 < sumWeights l := by
  cases l with
  | nil => exact absurd rfl hne
  | cons head tail =>
      obtain ⟨n, w⟩ := head
      have h1 : 1 ≤ w := hw (n, w) (by simp)
      have h2 := sumWeights_nonneg tail (fun p hp => hw p (by simp [hp]))
      rw [sumWeights_cons]; omega

theorem pickFrom_mem (collection : Dict) (r : Int) (n : String)
    (h : pickFrom collection r = some n) :
    n ∈ collection.map (fun p => p.1) := by
  induction collection generalizing r with
  | nil => simp [pickFrom] at h
  | cons head tail ih =>
      obtain ⟨name, weight⟩ := head
      rw [pickFrom] at h
      by_cases hle : r - weight ≤ 0
      · rw [if_pos hle] at h
        simp at h
        simp [h]
      · rw [if_neg hle] at h
        simpa using Or.inr (ih (r - weight) h)

theorem pickFrom_hits (collection : Dict) (r : Int)
    (h1 : 1 ≤ r) (h2 : r ≤ sumWeights collection) :
    ∃ n, pickFrom collection r = some n := by
  induction collection generalizing r with
  | nil => rw [sumWeights_nil] at h2; omega
  | cons head tail ih =>
      obtain ⟨name, weight⟩ := head
      rw [sumWeights_cons] at h2
      by_cases hle : r - weight ≤ 0
      · exact ⟨name, by rw [pickFrom, if_pos hle]⟩
      · obtain ⟨n, hn⟩ := ih (r - weight) (by omega) (by omega)
        exact ⟨n, by rw [pickFrom, if_neg hle]; exact hn⟩

/-! ### C2: invalid pool -/

/-- C2: whenever the total weight of the pool is `≤ 0` (empty pool, zero or
negative weights), `weighted_choice` signals failure (`None`) without making
any selection: no participant name is ever returned, whatever the random
source would have produced. -/
theorem weighted_choice_invalid_pool (collection : Dict) (randint : Int → Int)
    (h : sumWeights collection ≤ 0) :
    weighted_choice collection randint = none := by
  rw [weighted_choice]
  simp [h]

/-- Witness for C2 at the spec's own examples `{}` and `{A: 0}`. -/
theorem weighted_choice_invalid_pool_witness :
    (sumWeights [] ≤ 0 ∧ weighted_choice [] (fun _ => 1) = none) ∧
    (sumWeights [("A", (0 : Int))] ≤ 0 ∧
      weighted_choice [("A", (0 : Int))] (fun _ => 1) = none) :=
  ⟨⟨by decide, weighted_choice_invalid_pool [] (fun _ => 1) (by decide)⟩,
   ⟨by decide,
    weighted_choice_invalid_pool [("A", (0 : Int))] (fun _ => 1) (by decide)⟩⟩

/-! ### C3: positive total weight always selects a member -/

/-- C3: for every pool with total weight `T > 0` and every random value `r` in
`[1, T]`, `weighted_choice` returns `some` name that is a key of the mapping;
in particular the trailing `return None` fallback after the loop is never
reached under this precondition. -/
theorem weighted_choice_total_pos (collection : Dict) (r : Int)
    (hT : 0 < sumWeights collection) (h1 : 1 ≤ r)
    (h2 : r ≤ sumWeights collection) :
    ∃ n, weighted_choice collection (fun _ => r) = some n ∧
      n ∈ collection.map (fun p => p.1) := by
  obtain ⟨n, hn⟩ := pickFrom_hits collection r h1 h2
  refine ⟨n, ?_, pickFrom_mem collection r n hn⟩
  rw [weighted_choice]
  simp only [not_le.mpr hT, if_false]
  exact hn

/-- Witness for C3 at the pool `{A:1, B:3}` with `r = 2`. -/
theorem weighted_choice_total_pos_witness :
    ∃ n, weighted_choice [("A", (1 : Int)), ("B", 3)] (fun _ => 2) = some n ∧
      n ∈ ([("A", (1 : Int)), ("B", 3)] : Dict).map (fun p => p.1) :=
  weighted_choice_total_pos [("A", (1 : Int)), ("B", 3)] 2
    (by decide) (by decide) (by decide)

/-! ### C1: exact selection counts (stacked intervals) -/

theorem pickFrom_cons_of_le (n : String) (w : Int) (t : Dict) (r : Int)
    (h : r - w ≤ 0) : pickFrom ((n, w) :: t) r = some n := by
  rw [pickFrom, if_pos h]

theorem pickFrom_cons_of_gt (n : String) (w : Int) (t : Dict) (r : Int)
    (h : ¬r - w ≤ 0) : pickFrom ((n, w) :: t) r = pickFrom t (r - w) := by
  rw [pickFrom, if_neg h]

/-- Counting version of the stacked-intervals guarantee for the subtraction
loop: with unique names and weights `≥ 1`, exactly `w` of the values
`r ∈ [1, T]` make the loop return the entry `(n, w)`. -/
theorem pickFrom_count (collection : Dict) :
    (collection.map (fun p => p.1)).Nodup →
    (∀ p ∈ collection, 1 ≤ p.2) →
    ∀ n w, (n, w) ∈ collection →
      ((Finset.Icc (1 : ℤ) (sumWeights collection)).filter
        (fun r => pickFrom collection r = some n)).card = w.toNat := by
  induction collection with
  | nil => intro _ _ n w h; simp at h
  | cons head tail ih =>
      obtain ⟨n₀, w₀⟩ := head
      intro hnd hw n w hmem
      have hw₀ : 1 ≤ w₀ := hw (n₀, w₀) (by simp)
      have hwt : ∀ p ∈ tail, 1 ≤ p.2 := fun p hp => hw p (by simp [hp])
      have hS : 0 ≤ sumWeights tail := sumWeights_nonneg tail hwt
      rw [List.map_cons] at hnd
      have hnd' := List.nodup_cons.mp hnd
      have hn₀ : n₀ ∉ tail.map (fun p => p.1) := hnd'.1
      have hndt : (tail.map (fun p => p.1)).Nodup := hnd'.2
      have hsplit : Finset.Icc (1 : ℤ) (w₀ + sumWeights tail) =
          Finset.Icc (1 : ℤ) w₀ ∪ Finset.Icc (w₀ + 1) (w₀ + sumWeights tail) := by
        ext x
        simp only [Finset.mem_Icc, Finset.mem_union]
        omega
      have hdisj : Disjoint
          ((Finset.Icc (1 : ℤ) w₀).filter
            (fun r => pickFrom ((n₀, w₀) :: tail) r = some n))
          ((Finset.Icc (w₀ + 1) (w₀ + sumWeights tail)).filter
            (fun r => pickFrom ((n₀, w₀) :: tail) r = some n)) := by
        rw [Finset.disjoint_left]
        intro a ha hb
        have h1 := (Finset.mem_filter.mp ha).1
        have h2 := (Finset.mem_filter.mp hb).1
        rw [Finset.mem_Icc] at h1 h2
        omega
      have hlow : ∀ r ∈ Finset.Icc (1 : ℤ) w₀,
          pickFrom ((n₀, w₀) :: tail) r = some n₀ := by
        intro r hr
        rw [Finset.mem_Icc] at hr
        exact pickFrom_cons_of_le n₀ w₀ tail r (by omega)
      have hhigh : ∀ r ∈ Finset.Icc (w₀ + 1) (w₀ + sumWeights tail),
          pickFrom ((n₀, w₀) :: tail) r = pickFrom tail (r - w₀) := by
        intro r hr
        rw [Finset.mem_Icc] at hr
        exact pickFrom_cons_of_gt n₀ w₀ tail r (by omega)
      rw [sumWeights_cons, hsplit, Finset.filter_union,
        Finset.card_union_of_disjoint hdisj]
      rcases List.mem_cons.mp hmem with heq | htail
      · injection heq with hn hw'
        subst hn; subst hw'
        have hfull : (Finset.Icc (1 : ℤ) w).filter
            (fun r => pickFrom ((n, w) :: tail) r = some n) =
            Finset.Icc (1 : ℤ) w :=
          Finset.filter_true_of_mem hlow
        have hzero : ((Finset.Icc (w + 1) (w + sumWeights tail)).filter
            (fun r => pickFrom ((n, w) :: tail) r = some n)) = ∅ := by
          rw [Finset.filter_eq_empty_iff]
          intro r hr hcontra
          rw [hhigh r hr] at hcontra
          exact hn₀ (pickFrom_mem tail (r - w) n hcontra)
        rw [hfull, hzero, Int.card_Icc]
        simp
      · have hne : n ≠ n₀ := by
          intro hcontra
          subst hcontra
          exact hn₀ (List.mem_map.mpr ⟨(n, w), htail, rfl⟩)
        have hzero : ((Finset.Icc (1 : ℤ) w₀).filter
            (fun r => pickFrom ((n₀, w₀) :: tail) r = some n)) = ∅ := by
          rw [Finset.filter_eq_empty_iff]
          intro r hr hcontra
          rw [hlow r hr] at hcontra
          exact hne (Option.some.inj hcontra).symm
        have hshift : ((Finset.Icc (w₀ + 1) (w₀ + sumWeights tail)).filter
              (fun r => pickFrom ((n₀, w₀) :: tail) r = some n)) =
            Finset.image (fun r => r + w₀)
              ((Finset.Icc (1 : ℤ) (sumWeights tail)).filter
                (fun r => pickFrom tail r = some n)) := by
          ext x
          simp only [Finset.mem_filter, Finset.mem_Icc, Finset.mem_image]
          constructor
          · rintro ⟨⟨hx1, hx2⟩, hx3⟩
            refine ⟨x - w₀, ⟨⟨by omega, by omega⟩, ?_⟩, by ring⟩
            rw [hhigh x (Finset.mem_Icc.mpr ⟨hx1, hx2⟩)] at hx3
            exact hx3
          · rintro ⟨r, ⟨⟨hr1, hr2⟩, hr3⟩, rfl⟩
            refine ⟨⟨by omega, by omega⟩, ?_⟩
            rw [hhigh (r + w₀) (Finset.mem_Icc.mpr ⟨by omega, by omega⟩)]
            have hrw : r + w₀ - w₀ = r := by ring
            rw [hrw]
            exact hr3
        rw [hzero, hshift,
          Finset.card_image_of_injective _ (add_left_injective w₀)]
        simpa using ih hndt hwt n w htail

/-- C1: for a pool with unique names, all weights `≥ 1` (hence total `T > 0`)
and `(n, w)` an entry of the pool, exactly `w` of the `T` possible random
values `r ∈ [1, T]` make `weighted_choice` return `n` — the stacked-intervals
guarantee, so under a uniform `r` the selection probability of `n` is exactly
`w / T`. -/
theorem weighted_choice_exact_probability (collection : Dict) (n : String)
    (w : Int) (hnd : (collection.map (fun p => p.1)).Nodup)
    (hw : ∀ p ∈ collection, 1 ≤ p.2) (hmem : (n, w) ∈ collection) :
    ((Finset.Icc (1 : ℤ) (sumWeights collection)).filter
      (fun r => weighted_choice collection (fun _ => r) = some n)).card
      = w.toNat := by
  have hT : 0 < sumWeights collection :=
    sumWeights_pos collection (by rintro rfl; simp at hmem) hw
  have heq : ∀ r ∈ Finset.Icc (1 : ℤ) (sumWeights collection),
      (weighted_choice collection (fun _ => r) = some n) ↔
        (pickFrom collection r = some n) := by
    intro r _
    rw [weighted_choice]
    simp [not_le.mpr hT]
  rw [Finset.filter_congr heq]
  exact pickFrom_count collection hnd hw n w hmem

/-- Witness for C1 at the spec's pool `{A:1, B:3}`: exactly 3 of the 4
possible random values select `B`. -/
theorem weighted_choice_exact_probability_witness :
    ((Finset.Icc (1 : ℤ) (sumWeights [("A", 1), ("B", 3)])).filter
      (fun r => weighted_choice [("A", 1), ("B", 3)] (fun _ => r) = some "B")).card
      = 3 :=
  weighted_choice_exact_probability [("A", 1), ("B", 3)] "B" 3
    (by decide) (by decide) (by decide)

/-! ### Lemmas about `del pool[winner]` -/

theorem delKey_sublist (l : Dict) (k : String) :
    List.Sublist (delKey l k) l := by
  induction l with
  | nil => simp [delKey]
  | cons head tail ih =>
      obtain ⟨n, w⟩ := head
      rw [delKey]
      by_cases h : n = k
      · rw [if_pos h]
        exact List.sublist_cons_self (n, w) tail
      · rw [if_neg h]
        exact ih.cons₂ (n, w)

theorem delKey_length (l : Dict) (k : String)
    (h : k ∈ l.map (fun p => p.1)) :
    (delKey l k).length + 1 = l.length := by
  induction l with
  | nil => simp at h
  | cons head tail ih =>
      obtain ⟨n, w⟩ := head
      rw [delKey]
      by_cases hk : n = k
      · rw [if_pos hk]
        simp
      · rw [if_neg hk]
        have hmem : k ∈ tail.map (fun p => p.1) := by
          rcases (by simpa using h : k = n ∨ k ∈ tail.map (fun p => p.1)) with
            h1 | h1
          · exact absurd h1.symm hk
          · exact h1
        have := ih hmem
        simp only [List.length_cons]
        omega

theorem not_mem_keys_delKey (l : Dict) (k : String)
    (hnd : (l.map (fun p => p.1)).Nodup) :
    k ∉ (delKey l k).map (fun p => p.1) := by
  induction l with
  | nil => simp [delKey]
  | cons head tail ih =>
      obtain ⟨n, w⟩ := head
      rw [List.map_cons] at hnd
      have hnd' := List.nodup_cons.mp hnd
      rw [delKey]
      by_cases hk : n = k
      · rw [if_pos hk]
        subst hk
        exact hnd'.1
      · rw [if_neg hk]
        intro hcon
        rcases (by simpa using hcon :
            k = n ∨ k ∈ (delKey tail k).map (fun p => p.1)) with h1 | h1
        · exact hk h1.symm
        · exact ih hnd'.2 h1

/-! ### C4: the multi-winner draw -/

/-- Invariant proof for the loop of `draw_winners`: with unique, non-empty
names, weights `≥ 1` and enough entries in the pool, the loop produces exactly
`fuel` pairwise-distinct winners, all of them keys of the pool. -/
theorem drawLoop_spec (randint : Nat → Int → Int)
    (hr : ∀ s T, 0 < T → 1 ≤ randint s T ∧ randint s T ≤ T) :
    ∀ (fuel : Nat) (pool : Dict) (step : Nat),
      (pool.map (fun p => p.1)).Nodup →
      (∀ p ∈ pool, 1 ≤ p.2) →
      (∀ p ∈ pool, p.1 ≠ "") →
      fuel ≤ pool.length →
      (drawLoop randint fuel pool step).length = fuel ∧
      (drawLoop randint fuel pool step).Nodup ∧
      ∀ x ∈ drawLoop randint fuel pool step, x ∈ pool.map (fun p => p.1) := by
  intro fuel
  induction fuel with
  | zero =>
      intro pool step _ _ _ _
      simp [drawLoop]
  | succ fuel ih =>
      intro pool step hnd hw hnb hlen
      have hpne : pool ≠ [] := by
        intro hcon
        subst hcon
        simp at hlen
      have hT : 0 < sumWeights pool := sumWeights_pos pool hpne hw
      obtain ⟨hr1, hr2⟩ := hr step (sumWeights pool) hT
      obtain ⟨nm, hnm⟩ :=
        pickFrom_hits pool (randint step (sumWeights pool)) hr1 hr2
      have hwc : weighted_choice pool (randint step) = some nm := by
        rw [weighted_choice]
        simp only [not_le.mpr hT, if_false]
        exact hnm
      have hmemk : nm ∈ pool.map (fun p => p.1) := pickFrom_mem pool _ nm hnm
      obtain ⟨p, hp, hpn⟩ := List.mem_map.mp hmemk
      have hne : nm ≠ "" := by
        rw [← hpn]
        exact hnb p hp
      have hstep : drawLoop randint (fuel + 1) pool step =
          nm :: drawLoop randint fuel (delKey pool nm) (step + 1) := by
        rw [drawLoop, hwc]
        simp [hne]
      have hsub : List.Sublist (delKey pool nm) pool := delKey_sublist pool nm
      have hsubk : List.Sublist ((delKey pool nm).map (fun p => p.1))
          (pool.map (fun p => p.1)) := hsub.map _
      have hnd' : ((delKey pool nm).map (fun p => p.1)).Nodup :=
        hnd.sublist hsubk
      have hw' : ∀ q ∈ delKey pool nm, 1 ≤ q.2 :=
        fun q hq => hw q (hsub.subset hq)
      have hnb' : ∀ q ∈ delKey pool nm, q.1 ≠ "" :=
        fun q hq => hnb q (hsub.subset hq)
      have hlen' : fuel ≤ (delKey pool nm).length := by
        have := delKey_length pool nm hmemk
        omega
      obtain ⟨ihlen, ihnd, ihmem⟩ :=
        ih (delKey pool nm) (step + 1) hnd' hw' hnb' hlen'
      refine ⟨?_, ?_, ?_⟩
      · rw [hstep]
        simp [ihlen]
      · rw [hstep]
        refine List.nodup_cons.mpr ⟨?_, ihnd⟩
        intro hcon
        exact not_mem_keys_delKey pool nm hnd (ihmem nm hcon)
      · rw [hstep]
        intro x hx
        rcases List.mem_cons.mp hx with rfl | hx'
        · exact hmemk
        · exact hsubk.subset (ihmem x hx')

/-- C4: for a participant set with unique non-blank names and all weights
`≥ 1`, and any `k ≥ 1`, `draw_winners` returns an ordered sequence of exactly
`min(k, |participants|)` names, without duplicates, each a key of the input
mapping; and when `k ≥ |participants|` the result is a permutation of all the
participants' names — each participant exactly once — for every random
source respecting `randint(1, T) ∈ [1, T]`. -/
theorem draw_winners_spec (participants : Dict) (k : Int)
    (randint : Nat → Int → Int)
    (hnd : (participants.map (fun p => p.1)).Nodup)
    (hw : ∀ p ∈ participants, 1 ≤ p.2)
    (hnb : ∀ p ∈ participants, p.1 ≠ "")
    (hk : 1 ≤ k)
    (hr : ∀ s T, 0 < T → 1 ≤ randint s T ∧ randint s T ≤ T) :
    (draw_winners participants k randint).length =
      min k.toNat participants.length ∧
    (draw_winners participants k randint).Nodup ∧
    (∀ x ∈ draw_winners participants k randint,
      x ∈ participants.map (fun p => p.1)) ∧
    ((participants.length : Int) ≤ k →
      (draw_winners participants k randint).Perm
        (participants.map (fun p => p.1))) := by
  have hfle : (min k (participants.length : Int)).toNat ≤
      participants.length := by omega
  obtain ⟨hlen, hnodup, hmem⟩ := drawLoop_spec randint hr
    ((min k (participants.length : Int)).toNat) participants 0 hnd hw hnb hfle
  have hdw : draw_winners participants k randint =
      drawLoop randint ((min k (participants.length : Int)).toNat)
        participants 0 := rfl
  refine ⟨?_, ?_, ?_, ?_⟩
  · rw [hdw, hlen]
    omega
  · rw [hdw]
    exact hnodup
  · rw [hdw]
    exact hmem
  · intro hklen
    rw [hdw]
    apply List.Subperm.perm_of_length_le
    · exact List.subperm_of_subset hnodup hmem
    · rw [hlen, List.length_map]
      omega

/-- Witness for C4 at the spec's example `draw_without_replacement({A:5, B:5,
C:5}, 3)` with a random source that always returns 1. -/
theorem draw_winners_spec_witness :
    (draw_winners [("A", 5), ("B", 5), ("C", 5)] 3 (fun _ _ => 1)).length =
      min (Int.toNat 3) 3 ∧
    (draw_winners [("A", 5), ("B", 5), ("C", 5)] 3 (fun _ _ => 1)).Nodup ∧
    (∀ x ∈ draw_winners [("A", 5), ("B", 5), ("C", 5)] 3 (fun _ _ => 1),
      x ∈ ([("A", 5), ("B", 5), ("C", 5)] : Dict).map (fun p => p.1)) ∧
    ((([("A", 5), ("B", 5), ("C", 5)] : Dict).length : Int) ≤ 3 →
      (draw_winners [("A", 5), ("B", 5), ("C", 5)] 3 (fun _ _ => 1)).Perm
        (([("A", 5), ("B", 5), ("C", 5)] : Dict).map (fun p => p.1))) :=
  draw_winners_spec [("A", 5), ("B", 5), ("C", 5)] 3 (fun _ _ => 1)
    (by decide) (by decide) (by decide) (by decide)
    (fun _ T hT => ⟨le_refl 1, show (1 : ℤ) ≤ T by omega⟩)

/-! ### C10: the empty-string participant is treated as a failed pick -/

theorem drawLoop_no_empty_name (randint : Nat → Int → Int) :
    ∀ (fuel : Nat) (pool : Dict) (step : Nat),
      "" ∉ drawLoop randint fuel pool step := by
  intro fuel
  induction fuel with
  | zero =>
      intro pool step
      simp [drawLoop]
  | succ fuel ih =>
      intro pool step
      rw [drawLoop]
      cases hwc : weighted_choice pool (randint step) with
      | none => simp
      | some winner =>
          by_cases hne : winner = ""
          · simp [hne]
          · simp only [hne, if_false]
            intro hcon
            rcases List.mem_cons.mp hcon with h1 | h1
            · exact hne h1.symm
            · exact ih (delKey pool winner) (step + 1) h1

/-- C10: `draw_winners` tests the picked winner for Python truthiness (`if not
winner`), so a participant named by the empty string is treated like a failed
pick: the empty string never appears among the winners of any draw, whenever
the pick at some step returns `""` the loop stops there and returns the
winners collected so far, and concretely on `{"": 1, "A": 1}` with `k = 2`
the draw returns no winners at all — fewer than `min(k, |participants|)`. -/
theorem draw_winners_empty_string_breaks (participants pool : Dict) (k : Int)
    (randint : Nat → Int → Int) (fuel step : Nat)
    (hsel : weighted_choice pool (randint step) = some "") :
    "" ∉ draw_winners participants k randint ∧
    drawLoop randint (fuel + 1) pool step = [] ∧
    draw_winners [("", 1), ("A", 1)] 2 (fun _ _ => 1) = [] := by
  refine ⟨drawLoop_no_empty_name randint
    ((min k (participants.length : Int)).toNat) participants 0, ?_, by decide⟩
  rw [drawLoop, hsel]
  simp

/-- Witness for C10 at the pool `{"": 1, "A": 1}`, whose first pick with
`r = 1` selects the empty-string participant. -/
theorem draw_winners_empty_string_breaks_witness :
    "" ∉ draw_winners [("", 1), ("A", 1)] 2 (fun _ _ => 1) ∧
    drawLoop (fun _ _ => 1) (0 + 1) [("", 1), ("A", 1)] 0 = [] ∧
    draw_winners [("", 1), ("A", 1)] 2 (fun _ _ => 1) = [] :=
  draw_winners_empty_string_breaks [("", 1), ("A", 1)] [("", 1), ("A", 1)] 2
    (fun _ _ => 1) 0 0 (by decide)

/-! ### C6 and C9: the odds computation -/

theorem oddsLoop_eq (l : Dict) (total : Int) (h : total ≠ 0) :
    oddsLoop l total =
      some (l.map (fun p => (p.1, ((p.2 : ℚ) / (total : ℚ)) * 100))) := by
  induction l with
  | nil => simp [oddsLoop]
  | cons head tail ih =>
      obtain ⟨n, w⟩ := head
      rw [oddsLoop, if_neg h, ih]
      simp

/-- C6: on a non-empty participant set with positive total weight,
`show_odds` computes `100 × weight / total_weight` for every participant (in
insertion order), and in particular yields `{A: 50, B: 50}` on `{A:1, B:1}`
and `{A: 75, B: 25}` on `{A:3, B:1}`. -/
theorem show_odds_formula (participants : Dict)
    (hne : participants ≠ []) (hT : 0 < sumWeights participants) :
    show_odds participants =
      some (participants.map (fun p =>
        (p.1, 100 * (p.2 : ℚ) / (sumWeights participants : ℚ)))) ∧
    show_odds [("A", 1), ("B", 1)] = some [("A", 50), ("B", 50)] ∧
    show_odds [("A", 3), ("B", 1)] = some [("A", 75), ("B", 25)] := by
  refine ⟨?_, by norm_num [show_odds, oddsLoop, sumWeights],
    by norm_num [show_odds, oddsLoop, sumWeights]⟩
  rw [show_odds, oddsLoop_eq participants (sumWeights participants) (by omega)]
  have hfun : (fun p : String × Int =>
      (p.1, ((p.2 : ℚ) / (sumWeights participants : ℚ)) * 100)) =
      (fun p : String × Int =>
        (p.1, 100 * (p.2 : ℚ) / (sumWeights participants : ℚ))) := by
    funext p
    exact congrArg (Prod.mk p.1) (by ring)
  rw [hfun]

/-- Witness for C6 at the spec's example `{A:1, B:1}`. -/
theorem show_odds_formula_witness :
    show_odds [("A", 1), ("B", 1)] =
      some (([("A", 1), ("B", 1)] : Dict).map (fun p =>
        (p.1, 100 * (p.2 : ℚ) / (sumWeights [("A", 1), ("B", 1)] : ℚ)))) ∧
    show_odds [("A", 1), ("B", 1)] = some [("A", 50), ("B", 50)] ∧
    show_odds [("A", 3), ("B", 1)] = some [("A", 75), ("B", 25)] :=
  show_odds_formula [("A", 1), ("B", 1)] (by decide) (by decide)

/-- C9: `show_odds` divides by the total weight without a guard: on every
non-empty participant set whose weights sum to 0 (such as `{A: 0}`) it raises
`ZeroDivisionError` (modelled as `none`), whereas on the empty set the
per-participant loop never runs, so it completes and reports nothing. -/
theorem show_odds_division_by_zero (participants : Dict)
    (hne : participants ≠ []) (hz : sumWeights participants = 0) :
    show_odds participants = none ∧ show_odds ([] : Dict) = some [] := by
  refine ⟨?_, rfl⟩
  cases participants with
  | nil => exact absurd rfl hne
  | cons head tail =>
      obtain ⟨n, w⟩ := head
      rw [show_odds, hz, oddsLoop, if_pos rfl]

/-- Witness for C9 at the set `{A: 0}`. -/
theorem show_odds_division_by_zero_witness :
    show_odds [("A", 0)] = none ∧ show_odds ([] : Dict) = some [] :=
  show_odds_division_by_zero [("A", 0)] (by decide) (by decide)

/-! ### C8: `show_odds` is pure and idempotent -/

/-- C8: `show_odds` is pure: a call writes through no dict reference, so the
store is unchanged, and a second call on the same input then returns exactly
the same output — idempotence with no hidden state. -/
theorem show_odds_idempotent (σ : Store) (pRef : Nat) :
    (show_oddsS (show_oddsS σ pRef).2 pRef).1 = (show_oddsS σ pRef).1 ∧
    (show_oddsS σ pRef).2 = σ :=
  ⟨rfl, rfl⟩

/-! ### C5: no mutation of the caller's participant dict -/

theorem getD_set_ne (σ : Store) (i j : Nat) (d : Dict) (h : i ≠ j) :
    (σ.set i d).getD j [] = σ.getD j [] := by
  induction σ generalizing i j with
  | nil => simp
  | cons head tail ih =>
      cases i with
      | zero =>
          cases j with
          | zero => exact absurd rfl h
          | succ j => simp
      | succ i =>
          cases j with
          | zero => simp
          | succ j =>
              simpa using ih i j (fun hc => h (by rw [hc]))

/-- The loop of `draw_winners` writes only through the pool's reference: every
other reference reads the same dict afterwards. -/
theorem drawLoopS_frame (randint : Nat → Int → Int) :
    ∀ (fuel : Nat) (σ : Store) (q step j : Nat), j ≠ q →
      readDict (drawLoopS randint fuel σ q step).2 j = readDict σ j := by
  intro fuel
  induction fuel with
  | zero =>
      intro σ q step j _
      simp [drawLoopS]
  | succ fuel ih =>
      intro σ q step j h
      rw [drawLoopS]
      cases hwc : weighted_choice (readDict σ q) (randint step) with
      | none => simp
      | some winner =>
          by_cases hne : winner = ""
          · simp [hne]
          · simp only [hne, if_false]
            rw [ih (writeDict σ q (delKey (readDict σ q) winner)) q
              (step + 1) j h]
            exact getD_set_ne σ q j _ (fun hc => h hc.symm)

/-- C5: neither `draw_winners` nor `simulate_probabilities` mutates the
participant dict passed to it.  `draw_winners` copies the participants into a
freshly allocated pool and deletes entries only through the pool's reference,
so the caller's dict reads back identical; `simulate_probabilities` performs
no write at all, leaving the whole store unchanged. -/
theorem participants_not_mutated (σ : Store) (pRef : Nat) (k : Int)
    (draws : Nat) (randint : Nat → Int → Int) (hp : pRef < σ.length) :
    readDict (draw_winnersS σ pRef k randint).2 pRef = readDict σ pRef ∧
    (simulate_probabilitiesS σ pRef draws randint).2 = σ := by
  refine ⟨?_, rfl⟩
  have hfresh : pRef ≠ σ.length := by omega
  have hres : (draw_winnersS σ pRef k randint).2 =
      (drawLoopS randint
        ((min k ((readDict σ pRef).length : Int)).toNat)
        (σ ++ [readDict σ pRef]) σ.length 0).2 := rfl
  rw [hres, drawLoopS_frame randint _ _ _ _ _ hfresh]
  show (σ ++ [readDict σ pRef]).getD pRef [] = readDict σ pRef
  rw [List.getD_append σ [readDict σ pRef] [] pRef hp]
  rfl

/-- Witness for C5 with one participant dict in the store. -/
theorem participants_not_mutated_witness :
    readDict (draw_winnersS [[("A", 1)]] 0 1 (fun _ _ => 1)).2 0 =
      readDict [[("A", 1)]] 0 ∧
    (simulate_probabilitiesS [[("A", 1)]] 0 1 (fun _ _ => 1)).2 =
      [[("A", 1)]] :=
  participants_not_mutated [[("A", 1)]] 0 1 1 (fun _ _ => 1) (by decide)

/-! ### C7: what the callers do when the pick fails -/

/-- C7 evidence: on the invalid pool `{A: 0}` every pick fails, yet
`simulate_probabilities` completes all its trials, tallies the failures under
the `None` key (2 failed trials, 0 wins for `A`), and returns a report giving
`A` an observed rate of 0% — it neither stops nor propagates the failure.
`draw_winners` on the same pool does stop at the failed pick and returns no
winners. -/
theorem simulate_swallows_invalid_pool :
    tallyDraws [("A", 0)] (fun _ _ => 1) 2 none = 2 ∧
    tallyDraws [("A", 0)] (fun _ _ => 1) 2 (some "A") = 0 ∧
    simulate_probabilities [("A", 0)] 2 (fun _ _ => 1) = some [("A", 0)] ∧
    draw_winners [("A", 0)] 1 (fun _ _ => 1) = [] := by
  refine ⟨by decide, by decide, ?_, by decide⟩
  show reportLoop [("A", 0)] (tallyDraws [("A", 0)] (fun _ _ => 1) 2) 2 =
    some [("A", 0)]
  have htally : tallyDraws [("A", 0)] (fun _ _ => 1) 2 (some "A") = 0 := by
    decide
  simp [reportLoop, htally]
